import Mathlib

/-
Verification development for the TreeLib AVLMap (src/AVLTree/main.cpp).

The C++ code is a pointer-based AVL map: reference-counted child links
(shared_ptr), weak parent back-links, stored heights, recursive
insert / delete / lookup, rotations, and a bidirectional iterator that
walks the tree through the parent links.

Two embeddings are used:

1. A heap (arena) model: nodes live in a list indexed by address, child,
   parent links are optional addresses, and every operation is a function
   on the heap, mirroring the source statement by statement (shared_ptr
   moves are modelled as read-then-clear-then-write, a dereference of an
   absent pointer is an explicit nullDeref error, recursion carries fuel).
   This model supports pointer identity, parent links and the corrupted
   shapes the source can actually produce.

2. A pure inductive tree for the read-only functions Get and Contains,
   which touch only key, left, right; general theorems about them are
   proved by structural induction under the BST invariant.
-/

namespace TreeLib

/-- Failure conditions of the modelled C++ code: dereference of a null
pointer (undefined behaviour in the source), the runtime_error thrown by
Get, the out_of_range thrown by iterator increment, and exhaustion of
the recursion fuel used by the embedding. -/
inductive CErr where
  | nullDeref
  | notFound
  | outOfRange
  | fuelOut
deriving DecidableEq, Repr

/-- One Node of the source: key, value, owning child links, weak parent
back-link, stored height.  Links are optional arena addresses. -/
structure NodeH where
  key : Int
  value : Int
  left : Option Nat
  right : Option Nat
  parent : Option Nat
  height : Nat
deriving DecidableEq, Repr

/-- The arena: address a denotes nodes[a].  Nodes are never removed from
the arena (the model does not reclaim memory); a C++ deallocation just
leaves the node unreachable. -/
structure Heap where
  nodes : List NodeH
deriving DecidableEq, Repr

def Heap.read (h : Heap) (a : Nat) : Option NodeH := h.nodes[a]?

def Heap.write (h : Heap) (a : Nat) (n : NodeH) : Heap := ⟨h.nodes.set a n⟩

def Heap.alloc (h : Heap) (n : NodeH) : Heap × Nat :=
  (⟨h.nodes ++ [n]⟩, h.nodes.length)

def emptyHeap : Heap := ⟨[]⟩

def setL (h : Heap) (a : Nat) (x : Option Nat) : Heap :=
  match h.read a with
  | some n => h.write a { n with left := x }
  | none => h

def setR (h : Heap) (a : Nat) (x : Option Nat) : Heap :=
  match h.read a with
  | some n => h.write a { n with right := x }
  | none => h

def setP (h : Heap) (a : Nat) (x : Option Nat) : Heap :=
  match h.read a with
  | some n => h.write a { n with parent := x }
  | none => h

def setV (h : Heap) (a : Nat) (v : Int) : Heap :=
  match h.read a with
  | some n => h.write a { n with value := v }
  | none => h

def setH (h : Heap) (a : Nat) (x : Nat) : Heap :=
  match h.read a with
  | some n => h.write a { n with height := x }
  | none => h

def fieldL (h : Heap) (a : Nat) : Option Nat :=
  match h.read a with
  | some n => n.left
  | none => none

def fieldR (h : Heap) (a : Nat) : Option Nat :=
  match h.read a with
  | some n => n.right
  | none => none

def fieldP (h : Heap) (a : Nat) : Option Nat :=
  match h.read a with
  | some n => n.parent
  | none => none

/-- static int height(node): 0 for null, else the stored height field. -/
def hgt (h : Heap) (x : Option Nat) : Nat :=
  match x with
  | none => 0
  | some a =>
    match h.read a with
    | some n => n.height
    | none => 0

/-- static int BFactor(node): 0 for null, else height(right) - height(left)
computed from the stored height fields. -/
def bfactor (h : Heap) (x : Option Nat) : Int :=
  match x with
  | none => 0
  | some a => (hgt h (fieldR h a) : Int) - (hgt h (fieldL h a) : Int)

/-- static void FixHeight(node): no-op on null, else store
1 + max(height(left), height(right)). -/
def fixHeight (h : Heap) (x : Option Nat) : Heap :=
  match x with
  | none => h
  | some a =>
    match h.read a with
    | none => h
    | some n => h.write a { n with height := 1 + max (hgt h n.left) (hgt h n.right) }

/-- Dereference of a pointer: error nullDeref when absent (the UB of the
source). -/
def derefA (x : Option Nat) : Except CErr Nat :=
  match x with
  | some a => .ok a
  | none => .error .nullDeref

def readN (h : Heap) (a : Nat) : Except CErr NodeH :=
  match h.read a with
  | some n => .ok n
  | none => .error .nullDeref

/-- static void RotateLeft(shared_ptr& p).  The argument is the slot
holding p; the function returns the heap and the new slot value (q).
Statement order follows the source:
p-right := q-left; fix the moved subtree's parent; q-left := p;
FixHeight(p); q-parent := p-parent; p-parent := q; slot := q;
FixHeight(q). -/
def rotateLeft (h : Heap) (p : Nat) : Except CErr (Heap × Nat) := do
  let q ← derefA (fieldR h p)
  let h1 := setR h p (fieldL h q)
  let h2 := match fieldL h1 q with
    | some gl => setP h1 gl p
    | none => h1
  let h3 := setL h2 q (some p)
  let h4 := fixHeight h3 (some p)
  let h5 := setP h4 q (fieldP h4 p)
  let h6 := setP h5 p (some q)
  let h7 := fixHeight h6 (some q)
  .ok (h7, q)

/-- static void RotateRight(shared_ptr& q).  Mirrors the source exactly:
after the relink it runs FixHeight(p), reassigns the slot (q := p) and
then runs FixHeight(q) - which now names p again, so the demoted node's
stored height is never recomputed (unlike RotateLeft). -/
def rotateRight (h : Heap) (q : Nat) : Except CErr (Heap × Nat) := do
  let p ← derefA (fieldL h q)
  let h1 := setL h q (fieldR h p)
  let h2 := match fieldR h1 p with
    | some gr => setP h1 gr q
    | none => h1
  let h3 := setR h2 p (some q)
  let h4 := fixHeight h3 (some p)
  let h5 := setP h4 p (fieldP h4 q)
  let h6 := setP h5 q (some p)
  let h7 := fixHeight h6 (some p)
  .ok (h7, p)

/-- static void BalanceNode(shared_ptr& node): the argument is the slot;
returns the heap and the new slot value. -/
def balanceNode (h : Heap) (slot : Option Nat) : Except CErr (Heap × Option Nat) := do
  if bfactor h slot = 2 then do
    let a ← derefA slot
    let h ← if bfactor h (fieldR h a) = -1 then do
        let r ← derefA (fieldR h a)
        let pr ← rotateRight h r
        pure (setR pr.1 a (some pr.2))
      else pure h
    let pl ← rotateLeft h a
    pure (pl.1, some pl.2)
  else if bfactor h slot = -2 then do
    let a ← derefA slot
    let h ← if bfactor h (fieldL h a) = 1 then do
        let l ← derefA (fieldL h a)
        let pl ← rotateLeft h l
        pure (setL pl.1 a (some pl.2))
      else pure h
    let pr ← rotateRight h a
    pure (pr.1, some pr.2)
  else
    pure (h, slot)

/-- void Insert(parent, node, key, val).  The second argument is the slot
(root field or a child field); the function returns the heap and the new
slot value.  Mirrors the source: on an empty slot allocate a node (the
Node constructor sets height 1 and no children) and set its parent link;
otherwise, when the keys are equal overwrite the value IN ADDITION to
falling through into the comparison (equal is not greater, so the code
then also recurses into the right child); finally FixHeight and
BalanceNode on the slot. -/
def insertGo (h : Heap) (parent : Option Nat) (slot : Option Nat)
    (key val : Int) : Nat → Except CErr (Heap × Option Nat)
  | 0 => .error .fuelOut
  | fuel+1 =>
    match slot with
    | none =>
      let an := h.alloc { key := key, value := val, left := none, right := none,
                          parent := none, height := 1 }
      .ok (setP an.1 an.2 parent, some an.2)
    | some a => do
      let n ← readN h a
      let h0 := if n.key = key then setV h a val else h
      let h1 ← if n.key > key then do
          let pl ← insertGo h0 (some a) n.left key val fuel
          pure (setL pl.1 a pl.2)
        else do
          let pr ← insertGo h0 (some a) n.right key val fuel
          pure (setR pr.1 a pr.2)
      let h2 := fixHeight h1 (some a)
      balanceNode h2 (some a)

/-- static shared_ptr GetMaxLeft(node, result&).  Returns the heap, the
out-parameter result, and the returned pointer.  Mirrors the source: it
follows RIGHT children of the node it is given (the caller passes the
node being deleted itself, not its left child); at the bottom it takes
node-left as the return value, dereferences it to move node-parent onto
it (null dereference when the bottom node has no left child), moves node
into result and fixes result's height. -/
def getMaxLeft (h : Heap) (a : Nat) : Nat → Except CErr (Heap × Option Nat × Option Nat)
  | 0 => .error .fuelOut
  | fuel+1 => do
    let n ← readN h a
    match n.right with
    | some r => do
      let q ← getMaxLeft h r fuel
      let h1 := setR q.1 a q.2.2
      let h2 := fixHeight h1 q.2.2
      .ok (h2, q.2.1, some a)
    | none => do
      let t ← derefA n.left
      let p := fieldP h a
      let h1 := setP h a none
      let h2 := setP h1 t p
      let h3 := fixHeight h2 (some a)
      .ok (h3, some a, some t)

/-- shared_ptr Delete(root&, key): returns the heap and the new subtree
root.  Mirrors the source, including the reversed descent (key smaller
than the node's key recurses into the RIGHT child and conversely), the
call GetMaxLeft(root) on the node itself, the shared_ptr moves
(read, clear source, write destination), and the unguarded
result-parent store in the no-left-child branch. -/
def deleteGo (h : Heap) (root : Option Nat) (key : Int) :
    Nat → Except CErr (Heap × Option Nat)
  | 0 => .error .fuelOut
  | fuel+1 =>
    match root with
    | none => .ok (h, none)
    | some a => do
      let n ← readN h a
      if n.key = key then
        match n.left with
        | some _ => do
          let g ← getMaxLeft h a fuel
          let h2 := setL g.1 a g.2.2
          let rep ← derefA g.2.1
          let vp := fieldP h2 a
          let h3 := setP h2 a none
          let h4 := setP h3 rep vp
          let vl := fieldL h4 a
          let h5 := setL h4 a none
          let h6 := setL h5 rep vl
          let vr := fieldR h6 a
          let h7 := setR h6 a none
          let h8 := setR h7 rep vr
          let h9 := match fieldL h8 rep with
            | some l => setP h8 l rep
            | none => h8
          let h10 := match fieldR h9 rep with
            | some r => setP h9 r rep
            | none => h9
          let h11 := fixHeight h10 (some rep)
          let h12 := fixHeight h11 (some rep)
          balanceNode h12 (some rep)
        | none => do
          let v := fieldR h a
          let h1 := setR h a none
          let r ← derefA v
          let h2 := setP h1 r (fieldP h1 a)
          let h3 := fixHeight h2 (some r)
          balanceNode h3 (some r)
      else if key < n.key then do
        let q ← deleteGo h n.right key fuel
        let h1 := setR q.1 a q.2
        let h2 := fixHeight h1 (some a)
        balanceNode h2 (some a)
      else do
        let q ← deleteGo h n.left key fuel
        let h1 := setL q.1 a q.2
        let h2 := fixHeight h1 (some a)
        balanceNode h2 (some a)

/-- static bool Contains(node, key): null gives false; equal key true;
node key greater goes left, else right. -/
def containsGo (h : Heap) : Option Nat → Int → Nat → Except CErr Bool
  | none, _, _ => .ok false
  | some _, _, 0 => .error .fuelOut
  | some a, key, fuel+1 => do
    let n ← readN h a
    if n.key = key then .ok true
    else if n.key > key then containsGo h n.left key fuel
    else containsGo h n.right key fuel

/-- static ValT& Get(node, key) for the heap model: null throws the
runtime_error (notFound); equal key returns the value; node key greater
goes left, else right. -/
def getGo (h : Heap) : Option Nat → Int → Nat → Except CErr Int
  | none, _, _ => .error .notFound
  | some _, _, 0 => .error .fuelOut
  | some a, key, fuel+1 => do
    let n ← readN h a
    if n.key = key then .ok n.value
    else if n.key > key then getGo h n.left key fuel
    else getGo h n.right key fuel

/-- Number of reachable nodes with the given key (used to state the
duplicate-key behaviour of Insert). -/
def countKeyGo (h : Heap) : Option Nat → Int → Nat → Except CErr Nat
  | none, _, _ => .ok 0
  | some _, _, 0 => .error .fuelOut
  | some a, key, fuel+1 => do
    let n ← readN h a
    let cl ← countKeyGo h n.left key fuel
    let cr ← countKeyGo h n.right key fuel
    .ok (cl + cr + (if n.key = key then 1 else 0))

/-- Real height of the reachable structure (recomputed, ignoring the
stored height fields). -/
def trueHeightGo (h : Heap) : Option Nat → Nat → Except CErr Nat
  | none, _ => .ok 0
  | some _, 0 => .error .fuelOut
  | some a, fuel+1 => do
    let n ← readN h a
    let hl ← trueHeightGo h n.left fuel
    let hr ← trueHeightGo h n.right fuel
    .ok (1 + max hl hr)

/-- static shared_ptr GetLeft(root): leftmost node (null for null). -/
def getLeftGo (h : Heap) : Option Nat → Nat → Except CErr (Option Nat)
  | none, _ => .ok none
  | some _, 0 => .error .fuelOut
  | some a, fuel+1 => do
    let n ← readN h a
    match n.left with
    | none => .ok (some a)
    | some l => getLeftGo h (some l) fuel

/-- static shared_ptr GetRight(root): rightmost node (null for null). -/
def getRightGo (h : Heap) : Option Nat → Nat → Except CErr (Option Nat)
  | none, _ => .ok none
  | some _, 0 => .error .fuelOut
  | some a, fuel+1 => do
    let n ← readN h a
    match n.right with
    | none => .ok (some a)
    | some r => getRightGo h (some r) fuel

/-- Iterator::NextRight(node): leftmost node of the subtree given
(despite the name it follows left links); dereferences its argument. -/
def nextRightGo (h : Heap) : Option Nat → Nat → Except CErr Nat
  | x, 0 =>
    match x with
    | none => .error .nullDeref
    | some _ => .error .fuelOut
  | x, fuel+1 => do
    let a ← derefA x
    let n ← readN h a
    match n.left with
    | none => .ok a
    | some _ => nextRightGo h n.left fuel

/-- Iterator::NextTopPlus(node): walk parent links from node until a key
strictly greater than k0 (the key of the iterator's current node) is
found; null when no such ancestor exists. -/
def nextTopPlus (h : Heap) (k0 : Int) : Option Nat → Nat → Except CErr (Option Nat)
  | none, _ => .ok none
  | some _, 0 => .error .fuelOut
  | some a, fuel+1 => do
    let n ← readN h a
    if n.key > k0 then .ok (some a)
    else nextTopPlus h k0 n.parent fuel

/-- Iterator::operator++ : throws out_of_range at the end sentinel; with
a right child go to that subtree's leftmost node, else walk up to the
first ancestor with a greater key (null reaching the end sentinel). -/
def succIt (h : Heap) (node : Option Nat) (fuel : Nat) : Except CErr (Option Nat) :=
  match node with
  | none => .error .outOfRange
  | some a => do
    let n ← readN h a
    match n.right with
    | some _ => do
      let x ← nextRightGo h n.right fuel
      .ok (some x)
    | none => nextTopPlus h n.key n.parent fuel

/-- Keys yielded by a forward walk with the iterator from the given
position until the end sentinel. -/
def iterKeys (h : Heap) : Option Nat → Nat → Except CErr (List Int)
  | none, _ => .ok []
  | some _, 0 => .error .fuelOut
  | some a, fuel+1 => do
    let n ← readN h a
    let nxt ← succIt h (some a) fuel
    let rest ← iterKeys h nxt fuel
    .ok (n.key :: rest)

/-- Iterator::NextLeft(node): rightmost node of the subtree given
(follows right links); dereferences its argument. -/
def nextLeftGo (h : Heap) : Option Nat → Nat → Except CErr Nat
  | x, 0 =>
    match x with
    | none => .error .nullDeref
    | some _ => .error .fuelOut
  | x, fuel+1 => do
    let a ← derefA x
    let n ← readN h a
    match n.right with
    | none => .ok a
    | some _ => nextLeftGo h n.right fuel

/-- Iterator::NextTopMinus(node): walk parent links from node until a key
strictly smaller than k0 is found; null when none exists. -/
def nextTopMinus (h : Heap) (k0 : Int) : Option Nat → Nat → Except CErr (Option Nat)
  | none, _ => .ok none
  | some _, 0 => .error .fuelOut
  | some a, fuel+1 => do
    let n ← readN h a
    if n.key < k0 then .ok (some a)
    else nextTopMinus h k0 n.parent fuel

/-- Iterator::operator-- : mirrors the source, including the missing
early return: at the end sentinel the node is first reseated to the
rightmost node of the tree, and then the predecessor step still runs on
that node (so retreating from the end does NOT stop at the maximum).
The source also uses the weak node pointer without locking it; the model
reads it as a locked pointer, with a null dereference when absent. -/
def predIt (h : Heap) (root node : Option Nat) (fuel : Nat) : Except CErr (Option Nat) := do
  let node1 ← match node with
    | none => getRightGo h root fuel
    | some a => pure (some a)
  let a ← derefA node1
  let n ← readN h a
  match n.left with
  | some _ => do
    let x ← nextLeftGo h n.left fuel
    .ok (some x)
  | none => nextTopMinus h n.key n.parent fuel

/-- shared_ptr MakeCopy(root): null copies to null; otherwise allocate a
new node with the source key and value (constructor height 1), copy the
left then the right subtree, reparent the fresh right then left child to
the new node, and copy the stored height. -/
def makeCopy (h : Heap) : Option Nat → Nat → Except CErr (Heap × Option Nat)
  | none, _ => .ok (h, none)
  | some _, 0 => .error .fuelOut
  | some a, fuel+1 => do
    let n ← readN h a
    let an := h.alloc { key := n.key, value := n.value, left := none, right := none,
                        parent := none, height := 1 }
    let b := an.2
    let cl ← makeCopy an.1 n.left fuel
    let h3 := setL cl.1 b cl.2
    let cr ← makeCopy h3 n.right fuel
    let h5 := setR cr.1 b cr.2
    let h6 := match fieldR h5 b with
      | some r => setP h5 r b
      | none => h5
    let h7 := match fieldL h6 b with
      | some l => setP h6 l b
      | none => h6
    let h8 := setH h7 b n.height
    .ok (h8, some b)

/-- Iterator equality: the source compares the locked node pointers; in
the arena model (no deallocation) this is equality of the addresses. -/
def iterEq (x y : Option Nat) : Bool := x == y

/-- size_t TreeHeight(): stored height of the root, 0 when empty. -/
def treeHeight (h : Heap) (root : Option Nat) : Nat := hgt h root

/-- void Insert(key, val) at the map level: Insert(nullptr, root, key, val),
the new root is the final slot value. -/
def insertTop (h : Heap) (root : Option Nat) (key val : Int) :
    Except CErr (Heap × Option Nat) :=
  insertGo h none root key val 1000

/-- Build a map by the given insertions, starting from the empty map. -/
def buildMap (l : List (Int × Int)) : Except CErr (Heap × Option Nat) :=
  l.foldl
    (fun acc kv => do
      let s ← acc
      insertTop s.1 s.2 kv.1 kv.2)
    (.ok (emptyHeap, none))

/-
Concrete executions of the modelled code, used to settle the claims
whose stated behaviour the source violates.
-/

/-- Insert keys 1 and 2, Delete(2), then Contains(2).  The descent in
Delete is reversed (a key smaller than the node's key recurses into the
right child), so the node holding 2 is never found. -/
def c1Run : Except CErr Bool := do
  let s ← buildMap [(1, 10), (2, 20)]
  let d ← deleteGo s.1 s.2 2 1000
  containsGo d.1 d.2 2 1000

/-- Insert key 0 twice, then count the reachable nodes with key 0. -/
def c2Run : Except CErr Nat := do
  let s ← buildMap [(0, 0), (0, 5)]
  countKeyGo s.1 s.2 0 1000

/-- Insert 2 then 1, Delete(2) (the root, which has a left child and no
right child), then report Contains(2) together with the key stored at
the root the deletion returned. -/
def c3Run : Except CErr (Bool × Option Int) := do
  let s ← buildMap [(2, 20), (1, 10)]
  let d ← deleteGo s.1 s.2 2 1000
  let b ← containsGo d.1 d.2 2 1000
  match d.2 with
  | some a => do
    let n ← readN d.1 a
    pure (b, some n.key)
  | none => pure (b, none)

/-- Insert 2, 1, 4, 3, then Delete(2); report the root's balance factor
as BFactor computes it (stored heights) and also from recomputed real
subtree heights. -/
def c4Run : Except CErr (Int × Int) := do
  let s ← buildMap [(2, 0), (1, 0), (4, 0), (3, 0)]
  let d ← deleteGo s.1 s.2 2 1000
  let tl ← trueHeightGo d.1 (match d.2 with | some a => fieldL d.1 a | none => none) 1000
  let tr ← trueHeightGo d.1 (match d.2 with | some a => fieldR d.1 a | none => none) 1000
  pure (bfactor d.1 d.2, (tr : Int) - (tl : Int))

/-- Insert a single key 7 and Delete(7): the deleted node has no left
child, so the source runs result = move(root-right) with a null right
child and then writes result-parent through the null pointer. -/
def c5Run : Except CErr (Heap × Option Nat) := do
  let s ← buildMap [(7, 1)]
  deleteGo s.1 s.2 7 1000

/-- Insert key 0 twice, then walk the forward iterator from begin() to
the end sentinel collecting keys. -/
def c6Run : Except CErr (List Int) := do
  let s ← buildMap [(0, 0), (0, 5)]
  let b ← getLeftGo s.1 s.2 1000
  iterKeys s.1 b 1000

/-- Insert keys 1 and 2, then retreat an iterator from the end sentinel
and report the key of the node reached. -/
def c7Run : Except CErr (Option Int) := do
  let s ← buildMap [(1, 10), (2, 20)]
  let p ← predIt s.1 s.2 none 1000
  match p with
  | some a => do
    let n ← readN s.1 a
    pure (some n.key)
  | none => pure none

/-- Insert keys 1 and 2 (arena addresses 0 and 1), then run MakeCopy on
the root, returning the whole arena and the new root. -/
def c9Run : Except CErr (Heap × Option Nat) := do
  let s ← buildMap [(1, 10), (2, 20)]
  makeCopy s.1 s.2 1000

/-- C1.  The claim says every present key is absent after Delete(key).
Counter-evaluation: with keys 1 and 2 inserted, Delete(2) leaves
Contains(2) true, because Delete's descent comparison is reversed
(key smaller than the node's key recurses into the RIGHT child), so a
key that is not at the root is never located. -/
theorem delete_misses_nonroot_key : c1Run = .ok true := by rfl

/-- C2.  The claim says that after Insert(key, value) exactly one node
exists for the key.  Counter-evaluation: inserting key 0 twice leaves
TWO reachable nodes with key 0, because on an equal key Insert
overwrites the value but still falls through into the not-greater
branch and plants a fresh node in the right subtree. -/
theorem insert_duplicates_equal_key : c2Run = .ok 2 := by rfl

/-- C3.  The claim says the in-order predecessor (maximum of the left
subtree) is spliced into the deleted node's place.  Counter-evaluation:
deleting root 2 (left child 1, no right child) returns a root that
still holds key 2 and Contains(2) stays true: GetMaxLeft is invoked on
the deleted node itself rather than on its left child, and with no
right child it hands the node straight back as its own replacement. -/
theorem delete_splices_node_into_itself : c3Run = .ok (true, some 2) := by rfl

/-- C4.  The claim says every node's balance factor stays in -1..1 after
any sequence of inserts and deletes.  Counter-evaluation: after
inserting 2, 1, 4, 3 and deleting 2, the root's balance factor is 4 as
BFactor computes it from the stored heights, and still 2 when the
subtree heights are recomputed from the actual structure. -/
theorem balance_factor_violated : c4Run = .ok (4, 2) := by rfl

/-- C5.  The claim says deleting a node with no left child always
completes without dereferencing an absent node.  Counter-evaluation:
deleting the only node of a one-node map dereferences the null right
child (result = move(root-right); result-parent = root-parent). -/
theorem delete_leaf_null_deref : c5Run = .error .nullDeref := by rfl

/-- C6.  The claim says forward traversal of a map built by any insert
sequence yields strictly ascending keys, each stored key once.
Counter-evaluation: after inserting key 0 twice the forward walk from
begin() visits key 0 twice. -/
theorem traversal_repeats_duplicated_key : c6Run = .ok [0, 0] := by rfl

/-- C7.  The claim says retreating from the end sentinel moves to the
rightmost (maximum) node.  Counter-evaluation: with keys 1 and 2,
retreating from the end reaches key 1 - operator-- reseats the
iterator on the maximum but then falls through into the predecessor
step instead of returning. -/
theorem retreat_from_end_misses_max : c7Run = .ok (some 1) := by rfl

/-- C9 (supporting evaluation of the working half).  MakeCopy of the
two-node map stored at arena addresses 0 and 1 allocates fresh nodes at
addresses 2 and 3 - sharing none with the source - with the same keys,
values and heights, and with the parent links rebuilt onto the new
nodes.  The copy-assignment operator itself cannot be evaluated: it
passes the whole map object to MakeCopy, which expects a node pointer,
and therefore fails to type-check when instantiated. -/
theorem makeCopy_deep_copies_concrete :
    c9Run = .ok
      (⟨[{ key := 1, value := 10, left := none, right := some 1, parent := none, height := 2 },
         { key := 2, value := 20, left := none, right := none, parent := some 0, height := 1 },
         { key := 1, value := 10, left := none, right := some 3, parent := none, height := 2 },
         { key := 2, value := 20, left := none, right := none, parent := some 2, height := 1 }]⟩,
       some 2) := by rfl

/-- C10.  A default-constructed map has a null root: begin() equals
end() (both iterators hold the null node and the source compares the
locked node pointers), TreeHeight() is 0, and Contains(k) is false for
every key, with any amount of recursion fuel. -/
theorem empty_map_properties :
    (∀ fuel, (do
        let b ← getLeftGo emptyHeap none fuel
        pure (iterEq b none)) = Except.ok true)
  ∧ treeHeight emptyHeap none = 0
  ∧ (∀ k fuel, containsGo emptyHeap none k fuel = .ok false) :=
  ⟨fun fuel => by cases fuel <;> rfl, rfl, fun k fuel => by cases fuel <;> rfl⟩

/-
Pure tree embedding of the read-only lookups.  Get and Contains read
only key, left and right, so on any well-formed (acyclic, tree-shaped)
heap they coincide with the structural recursion below; general
theorems about them are proved here by induction.
-/

/-- A node of the source as a pure tree: key, value, left and right
subtree, stored height (the height plays no role in lookups). -/
inductive Tree where
  | nil : Tree
  | node (key : Int) (value : Int) (left : Tree) (right : Tree) (height : Nat) : Tree
deriving DecidableEq, Repr

/-- static ValT& Get(node, key): a null node throws the runtime_error
"Not found"; on an equal key the stored value is returned (the source
returns a mutable reference to it); a node key greater than the probe
descends left, otherwise right. -/
def getT : Tree → Int → Except CErr Int
  | .nil, _ => .error .notFound
  | .node k v l r _, key =>
    if k = key then .ok v
    else if k > key then getT l key
    else getT r key

/-- static bool Contains(node, key): same descent, returning a Bool and
never raising anything. -/
def containsT : Tree → Int → Bool
  | .nil, _ => false
  | .node k _ l r _, key =>
    if k = key then true
    else if k > key then containsT l key
    else containsT r key

/-- The key is stored somewhere in the tree (no ordering assumed). -/
def hasKeyT : Tree → Int → Bool
  | .nil, _ => false
  | .node k _ l r _, key => (k = key) || hasKeyT l key || hasKeyT r key

/-- Some node of the tree stores exactly this key/value pair. -/
def entryT : Tree → Int → Int → Bool
  | .nil, _, _ => false
  | .node k v l r _, key, val => ((k = key) && (v = val)) || entryT l key val || entryT r key val

/-- Every key of the tree is strictly below the bound. -/
def allLtKey : Tree → Int → Bool
  | .nil, _ => true
  | .node k _ l r _, b => (decide (k < b)) && allLtKey l b && allLtKey r b

/-- Every key of the tree is strictly above the bound. -/
def allGtKey : Tree → Int → Bool
  | .nil, _ => true
  | .node k _ l r _, b => (decide (b < k)) && allGtKey l b && allGtKey r b

/-- BST ordering invariant of the data model: left keys below the node
key, right keys above, recursively. -/
def bstT : Tree → Bool
  | .nil => true
  | .node k _ l r _ => allLtKey l k && allGtKey r k && bstT l && bstT r

theorem hasKeyT_lt_of_allLt {t : Tree} {b key : Int}
    (hall : allLtKey t b = true) (hk : hasKeyT t key = true) : key < b := by
  induction t with
  | nil => simp [hasKeyT] at hk
  | node k v l r ht ihl ihr =>
    simp only [allLtKey, Bool.and_eq_true, decide_eq_true_eq] at hall
    simp only [hasKeyT, Bool.or_eq_true, decide_eq_true_eq] at hk
    rcases hk with (hk | hk) | hk
    · omega
    · exact ihl hall.1.2 hk
    · exact ihr hall.2 hk

theorem hasKeyT_gt_of_allGt {t : Tree} {b key : Int}
    (hall : allGtKey t b = true) (hk : hasKeyT t key = true) : b < key := by
  induction t with
  | nil => simp [hasKeyT] at hk
  | node k v l r ht ihl ihr =>
    simp only [allGtKey, Bool.and_eq_true, decide_eq_true_eq] at hall
    simp only [hasKeyT, Bool.or_eq_true, decide_eq_true_eq] at hk
    rcases hk with (hk | hk) | hk
    · omega
    · exact ihl hall.1.2 hk
    · exact ihr hall.2 hk

theorem hasKeyT_of_entryT {t : Tree} {key val : Int}
    (he : entryT t key val = true) : hasKeyT t key = true := by
  induction t with
  | nil => simp [entryT] at he
  | node k v l r ht ihl ihr =>
    simp only [entryT, Bool.or_eq_true, Bool.and_eq_true, decide_eq_true_eq] at he
    simp only [hasKeyT, Bool.or_eq_true, decide_eq_true_eq]
    rcases he with (he | he) | he
    · exact Or.inl (Or.inl he.1)
    · exact Or.inl (Or.inr (ihl he))
    · exact Or.inr (ihr he)

theorem hasKeyT_false_left {l : Tree} {k key : Int}
    (hall : allLtKey l k = true) (h : k ≤ key) : hasKeyT l key = false := by
  cases hc : hasKeyT l key with
  | false => rfl
  | true =>
    have := hasKeyT_lt_of_allLt hall hc
    omega

theorem hasKeyT_false_right {r : Tree} {k key : Int}
    (hall : allGtKey r k = true) (h : key ≤ k) : hasKeyT r key = false := by
  cases hc : hasKeyT r key with
  | false => rfl
  | true =>
    have := hasKeyT_gt_of_allGt hall hc
    omega

theorem entryT_false_of_hasKeyT_false {t : Tree} {key v : Int}
    (h : hasKeyT t key = false) : entryT t key v = false := by
  cases hc : entryT t key v with
  | false => rfl
  | true => rw [hasKeyT_of_entryT hc] at h; exact absurd h (by simp)

/-- C8.  On any tree satisfying the BST ordering invariant of the data
model: Contains answers exactly key membership (and by its Bool return
type never raises anything), Get raises the NotFound condition exactly
when the key is absent, and Get returns a value exactly when some node
stores that key/value pair (the source hands back a mutable reference
to that stored value). -/
theorem get_contains_correct (t : Tree) (key v : Int) (hbst : bstT t = true) :
    containsT t key = hasKeyT t key
  ∧ (getT t key = .error .notFound ↔ hasKeyT t key = false)
  ∧ (getT t key = .ok v ↔ entryT t key v = true) := by
  induction t with
  | nil => exact ⟨rfl, by simp [getT, hasKeyT], by simp [getT, entryT]⟩
  | node k v0 l r ht ihl ihr =>
    rw [bstT, Bool.and_eq_true, Bool.and_eq_true, Bool.and_eq_true] at hbst
    obtain ⟨⟨⟨hlt, hgtb⟩, hbl⟩, hbr⟩ := hbst
    rcases lt_trichotomy k key with hlt2 | heq | hgt2
    · have hne : ¬ (k = key) := by omega
      have hng : ¬ (k > key) := by omega
      have hLf : hasKeyT l key = false := hasKeyT_false_left hlt (le_of_lt hlt2)
      have hEf : entryT l key v = false := entryT_false_of_hasKeyT_false hLf
      obtain ⟨ih1, ih2, ih3⟩ := ihr hbr
      refine ⟨?_, ?_, ?_⟩
      · simp [containsT, hasKeyT, hne, hng, hLf, ih1]
      · simp [getT, hasKeyT, hne, hng, hLf, ih2]
      · simp [getT, entryT, hne, hng, hEf, ih3]
    · subst heq
      have hLf : hasKeyT l k = false := hasKeyT_false_left hlt le_rfl
      have hRf : hasKeyT r k = false := hasKeyT_false_right hgtb le_rfl
      refine ⟨?_, ?_, ?_⟩
      · simp [containsT, hasKeyT]
      · simp [getT, hasKeyT]
      · simp [getT, entryT, entryT_false_of_hasKeyT_false hLf,
          entryT_false_of_hasKeyT_false hRf]
    · have hne : ¬ (k = key) := by omega
      have hRf : hasKeyT r key = false := hasKeyT_false_right hgtb (le_of_lt hgt2)
      have hEf : entryT r key v = false := entryT_false_of_hasKeyT_false hRf
      obtain ⟨ih1, ih2, ih3⟩ := ihl hbl
      refine ⟨?_, ?_, ?_⟩
      · simp [containsT, hasKeyT, hne, hgt2, hRf, ih1]
      · simp [getT, hasKeyT, hne, hgt2, hRf, ih2]
      · simp [getT, entryT, hne, hgt2, hEf, ih3]

/-- A small BST used to witness the lookup theorem at a concrete input. -/
def t8 : Tree := .node 2 20 (.node 1 10 .nil .nil 1) (.node 3 30 .nil .nil 1) 2

/-- Witness for C8: the lookup theorem applied to the concrete BST t8 at
key 1 and value 10. -/
theorem get_contains_correct_witness :
    bstT t8 = true
  ∧ (containsT t8 1 = hasKeyT t8 1
     ∧ (getT t8 1 = .error .notFound ↔ hasKeyT t8 1 = false)
     ∧ (getT t8 1 = .ok 10 ↔ entryT t8 1 10 = true)) :=
  ⟨by decide, get_contains_correct t8 1 10 (by decide)⟩

end TreeLib
